import Mathlib

/-!
Shallow embedding of the counted-pointer CAS primitive (ccas.h), the
lock-free stack and the lock-free FIFO queue (atomic_stack.h).

Node addresses are natural numbers; the C NULL pointer is modelled as
`Option.none`, so `some a` is a non-null pointer to the node at address
`a`.  The 64-bit counter halves hold the bit pattern of the C `int64_t`
fields as a natural number below `2 ^ 64`; `int64` arithmetic is taken
modulo `2 ^ 64` and re-read as a signed value where the code returns a
`long`.  The heap of nodes is an explicit function from addresses to the
contents of the embedded `next` field.  The retry loops of the queue are
given explicit fuel; in the single-threaded traces considered here each
CAS compares a cell with the value just read from it and therefore
succeeds, so a small fuel always suffices.  Invocations of the
caller-supplied release callback (the `freeer`) are recorded in an
instrumentation log carried by the queue state.  `Option.none` as an
operation result models an assertion failure, a NULL dereference, or
fuel exhaustion, as stated at each definition.
-/

/-- Addresses of nodes.  The C NULL pointer is `Option.none`, not an
address. -/
abbrev Addr := Nat

/-- TWO64 is the modulus of 64-bit counter arithmetic. -/
def TWO64 : Nat := 2 ^ 64

/-- BIT63 is the reclamation handshake bit of a queue node counter, the C
value `1L << 63`. -/
def BIT63 : Nat := 2 ^ 63

/-- Model of `struct counted_ptr` (ccas.h): a pointer half and a 64-bit
counter half. -/
structure counted_ptr where
  ptr : Option Addr
  ctr : Nat
deriving DecidableEq, Repr

/-- Model of `counted_ptr_eq` (ccas.h): both halves are compared. -/
def counted_ptr_eq (a b : counted_ptr) : Bool :=
  a.ptr == b.ptr && a.ctr == b.ctr

/-- Model of `counted_compare_and_swap` (ccas.h).  The first component is
the C result flag (1 on success, 0 on failure, modelled as `Bool`); the
second is the resulting contents of the cell: `(newptr, old.ctr + inc)`
with 64-bit wraparound on success, the unchanged cell on failure.  The
16-byte alignment assertion on the cell concerns memory layout and is not
modelled; the assertion `inc > 0` appears as a hypothesis of the
theorems about this function. -/
def counted_compare_and_swap (mem old : counted_ptr) (newptr : Option Addr)
    (inc : Nat) : Bool × counted_ptr :=
  if counted_ptr_eq mem old then
    (true, ⟨newptr, (old.ctr + inc) % TWO64⟩)
  else
    (false, mem)

/-- toSInt64 reads a 64-bit pattern as a signed (two-complement) value,
the value of a C `int64_t` with those bits. -/
def toSInt64 (n : Nat) : Int :=
  if n < BIT63 then (n : Int) else (n : Int) - (TWO64 : Int)

/-- sub64 is the `int64` subtraction on 64-bit patterns, as computed by
the C expression `tail.ctr - head.ctr` of type `long`. -/
def sub64 (a b : Nat) : Int := toSInt64 ((a + TWO64 - b) % TWO64)

/-! ### The stack (atomic_stack.h, first part) -/

/-- State of a `struct as_head` stack together with the heap of
`struct as_entry` nodes: `nexts a` is the plain `next` field of the node
at address `a`. -/
structure StackState where
  first : counted_ptr
  nexts : Addr → Option Addr

/-- Model of `as_init`: the head is set to `(NULL, 0)`.  The 16-byte
alignment assertion on the head address concerns memory layout and is not
modelled. -/
def as_init (h : Addr → Option Addr) : StackState :=
  { first := ⟨none, 0⟩, nexts := h }

/-- Store to the `next` field of one stack node. -/
def StackState.setNext (σ : StackState) (a : Addr) (v : Option Addr) :
    StackState :=
  { σ with nexts := fun x => if x = a then v else σ.nexts x }

/-- Model of `as_push`.  The node stores the read head pointer into its
`next` field; the assertion `e->next != e` fails exactly when the current
head is `e` itself (result `none`).  Single-threaded, the CAS compares
the head cell with the value just read from it and succeeds, so the
do/while loop runs exactly once; the unreachable retry branch is also
mapped to `none`. -/
def as_push (σ : StackState) (e : Addr) : Option StackState :=
  let oldhead := σ.first
  let σ₁ := σ.setNext e oldhead.ptr
  if σ₁.nexts e = some e then none
  else
    let r := counted_compare_and_swap σ₁.first oldhead (some e) 1
    if r.1 then some { σ₁ with first := r.2 } else none

/-- Model of `as_pop`: if the head pointer is NULL return NULL and leave
the state unchanged, otherwise CAS the head to the next pointer of the
top node and return the top node.  Single-threaded the CAS succeeds on
the first iteration of the do/while loop, so no fuel is needed. -/
def as_pop (σ : StackState) : Option Addr × StackState :=
  let ret := σ.first
  match ret.ptr with
  | none => (none, σ)
  | some p =>
    let r := counted_compare_and_swap σ.first ret (σ.nexts p) 1
    (some p, { σ with first := r.2 })

/-- Model of `as_empty`: observe whether the head pointer is NULL. -/
def as_empty (σ : StackState) : Bool := σ.first.ptr.isNone

/-! ### The queue (atomic_stack.h, second part) -/

/-- State of a `struct atomic_q` queue together with the heap of
`struct atomic_el` nodes and an instrumentation log.  `mem a` is the
counted-pointer `next` field of the node at address `a`; `freeer` records
whether the callback pointer is non-NULL; `freeer_arg` is the opaque
argument word (`0` standing for NULL); `freed` is the log of callback
invocations, in order, one entry per call. -/
structure QState where
  freeer : Bool
  freeer_arg : Nat
  head : counted_ptr
  tail : counted_ptr
  mem : Addr → counted_ptr
  freed : List Addr

/-- Store to the `next` field of one queue node. -/
def QState.setMem (σ : QState) (a : Addr) (v : counted_ptr) : QState :=
  { σ with mem := fun x => if x = a then v else σ.mem x }

/-- Model of `aq_init`: the dummy next pointer is NULLed and its counter
preset to BIT63 (the dummy only needs a single toggle), head and tail are
set to the dummy with counter 0, and the callback fields are installed.
The 16-byte alignment assertions on `mb` and `dummyel` concern memory
layout and are not modelled. -/
def aq_init (m : Addr → counted_ptr) (dummyel : Addr) (arg : Nat) : QState :=
  let σ : QState := { freeer := true, freeer_arg := arg,
                      head := ⟨some dummyel, 0⟩, tail := ⟨some dummyel, 0⟩,
                      mem := m, freed := [] }
  σ.setMem dummyel ⟨none, BIT63⟩

/-- Model of `aq_el_init`: only the counter half of the element next
field is zeroed. -/
def aq_el_init (σ : QState) (el : Addr) : QState :=
  σ.setMem el ⟨(σ.mem el).ptr, 0⟩

/-- Model of `aq_empty`: dereference `head.ptr` and test its next
pointer; `none` models the NULL dereference when `head.ptr` is NULL. -/
def aq_empty (σ : QState) : Option Bool :=
  match σ.head.ptr with
  | none => none
  | some d => some ((σ.mem d).ptr.isNone)

/-- Model of `aq_queued`: the `int64` difference `tail.ctr - head.ctr`. -/
def aq_queued (σ : QState) : Int := sub64 σ.tail.ctr σ.head.ctr

/-- Model of `aq_el_free`: fetch-and-xor of BIT63 into the counter of the
element next field; the callback fires, appending `el` to the log, iff
the pre-xor value had BIT63 set. -/
def aq_el_free (σ : QState) (el : Addr) : QState :=
  let i := (σ.mem el).ctr
  let σ₁ := σ.setMem el ⟨(σ.mem el).ptr, i ^^^ BIT63⟩
  if i &&& BIT63 ≠ 0 then { σ₁ with freed := σ₁.freed ++ [el] } else σ₁

/-- Model of the drain loop of `aq_free`, with fuel bounding the number
of iterations (the C loop runs until `head.ptr` is NULL).  Each iteration
CASes `head` from its current value to the next pointer of the current
head node — single-threaded this always succeeds — and invokes the
callback on the removed node. -/
def aq_free_loop : Nat → QState → QState
  | 0, σ => σ
  | fuel + 1, σ =>
    match σ.head.ptr with
    | none => σ
    | some el =>
      let r := counted_compare_and_swap σ.head σ.head ((σ.mem el).ptr) 1
      let σ₁ : QState := { σ with head := r.2 }
      let σ₂ := if r.1 then { σ₁ with freed := σ₁.freed ++ [el] } else σ₁
      aq_free_loop fuel σ₂

/-- Model of `aq_free`: drain all elements, then zero head and tail and
clear the callback pointer.  Note that the source does not clear
`freeer_arg`. -/
def aq_free (fuel : Nat) (σ : QState) : QState :=
  let σ₁ := aq_free_loop fuel σ
  { σ₁ with head := ⟨none, 0⟩, tail := ⟨none, 0⟩, freeer := false }

/-- Model of the chain scan at the top of `aq_enqueue_multi`: walk the
null-terminated chain counting elements and finding the last one.  The
fuel bounds the walk; `none` models a failure of the per-node assertion
`last_el != last_el->next.ptr`, or a cyclic chain exhausting the fuel. -/
def aq_chain_scan : Nat → (Addr → counted_ptr) → Addr → Nat →
    Option (Addr × Nat)
  | 0, m, last_el, count =>
    match (m last_el).ptr with
    | none => some (last_el, count)
    | some _ => none
  | fuel + 1, m, last_el, count =>
    match (m last_el).ptr with
    | none => some (last_el, count)
    | some nxt =>
      if last_el = nxt then none
      else aq_chain_scan fuel m nxt (count + 1)

/-- Model of the retry loop of `aq_enqueue_multi`, with fuel.  On the
winning iteration (successful CAS linking `el` after the tail node) it
returns the updated state together with the `tail` value read in that
iteration, which the code then uses for the final tail swing.  `none`
models failure of the assertion `aq_from_cp(&tail) != el`, a NULL tail
dereference, or fuel exhaustion. -/
def aq_enqueue_loop : Nat → QState → Addr → Addr →
    Option (QState × counted_ptr)
  | 0, _, _, _ => none
  | fuel + 1, σ, el, last_el =>
    let tail := σ.tail
    match tail.ptr with
    | none => none
    | some tp =>
      let next := σ.mem tp
      if tp = el then none
      else if !counted_ptr_eq tail σ.tail then
        aq_enqueue_loop fuel σ el last_el
      else if next.ptr = none then
        let σ₁ := σ.setMem last_el ⟨(σ.mem last_el).ptr, tail.ctr⟩
        let r := counted_compare_and_swap (σ₁.mem tp) next (some el) 1
        let σ₂ := σ₁.setMem tp r.2
        if r.1 then some (σ₂, tail) else aq_enqueue_loop fuel σ₂ el last_el
      else
        let r := counted_compare_and_swap σ.tail tail next.ptr 1
        aq_enqueue_loop fuel { σ with tail := r.2 } el last_el

/-- Model of `aq_enqueue_multi`.  The two leading assertions check the
16-byte alignment and the clear handshake bit of the first element of the
chain; then the chain is scanned, the retry loop links it after the tail
node, the tail is swung to the last new element by a CAS whose outcome is
ignored, and the `int64` difference `tail.ctr - head.ctr` is returned. -/
def aq_enqueue_multi (fuel : Nat) (σ : QState) (el : Addr) :
    Option (QState × Int) :=
  if el % 16 ≠ 0 then none
  else if (σ.mem el).ctr &&& BIT63 ≠ 0 then none
  else
    match aq_chain_scan fuel σ.mem el 1 with
    | none => none
    | some (last_el, count) =>
      match aq_enqueue_loop fuel σ el last_el with
      | none => none
      | some (σ₂, tail) =>
        let r := counted_compare_and_swap σ₂.tail tail (some last_el) count
        let σ₃ : QState := { σ₂ with tail := r.2 }
        some (σ₃, sub64 σ₃.tail.ctr σ₃.head.ctr)

/-- Model of `aq_enqueue`: NULL the next pointer of `el` (leaving its
counter as it is), then delegate to `aq_enqueue_multi`. -/
def aq_enqueue (fuel : Nat) (σ : QState) (el : Addr) :
    Option (QState × Int) :=
  aq_enqueue_multi fuel (σ.setMem el ⟨none, (σ.mem el).ctr⟩) el

/-- Model of the retry loop of `aq_dequeue`, with fuel.  The result
`some (σ, none)` is the empty-queue return of NULL; the result
`some (σ, some (hp, nextptr))` is a successful head CAS, with `hp` the
old head node and `nextptr` the next pointer read in the winning
iteration.  The outer `none` models fuel exhaustion or a NULL head
dereference. -/
def aq_dequeue_loop : Nat → QState →
    Option (QState × Option (Addr × Option Addr))
  | 0, _ => none
  | fuel + 1, σ =>
    let head := σ.head
    let tail := σ.tail
    match head.ptr with
    | none => none
    | some hp =>
      let next := σ.mem hp
      if !counted_ptr_eq head σ.head then
        aq_dequeue_loop fuel σ
      else if next.ptr = none ∨ head.ptr = tail.ptr then
        if next.ptr = none then some (σ, none)
        else
          let r := counted_compare_and_swap σ.tail tail next.ptr 1
          aq_dequeue_loop fuel { σ with tail := r.2 }
      else
        let r := counted_compare_and_swap σ.head head next.ptr 1
        let σ₁ : QState := { σ with head := r.2 }
        if r.1 then some (σ₁, some (hp, next.ptr))
        else aq_dequeue_loop fuel σ₁

/-- Model of `aq_dequeue`: run the loop; on a successful head CAS, free
the old head node via `aq_el_free` and return the next pointer read at
the winning iteration. -/
def aq_dequeue (fuel : Nat) (σ : QState) : Option (QState × Option Addr) :=
  match aq_dequeue_loop fuel σ with
  | none => none
  | some (σ₁, none) => some (σ₁, none)
  | some (σ₁, some (hp, nextptr)) => some (aq_el_free σ₁ hp, nextptr)

/-! ### Derived traces and specification predicates -/

/-- aq_dequeue_list performs `n` dequeues in sequence, each with the
given fuel, collecting the returned values in order. -/
def aq_dequeue_list : Nat → Nat → QState →
    Option (QState × List (Option Addr))
  | 0, _, σ => some (σ, [])
  | n + 1, fuel, σ =>
    match aq_dequeue fuel σ with
    | none => none
    | some (σ₁, r) =>
      match aq_dequeue_list n fuel σ₁ with
      | none => none
      | some (σ₂, rs) => some (σ₂, r :: rs)

/-- as_push_list pushes the nodes of a list in order, propagating an
assertion failure of `as_push`. -/
def as_push_list (σ : StackState) : List Addr → Option StackState
  | [] => some σ
  | x :: xs =>
    match as_push σ x with
    | none => none
    | some σ₁ => as_push_list σ₁ xs

/-- as_pop_list pops `n` times, collecting the returned values in
order. -/
def as_pop_list : Nat → StackState → List (Option Addr) × StackState
  | 0, σ => ([], σ)
  | n + 1, σ =>
    let r := as_pop σ
    let rest := as_pop_list n r.2
    (r.1 :: rest.1, rest.2)

/-- lastOf a xs is the last element of the nonempty list `a :: xs`. -/
def lastOf (a : Addr) : List Addr → Addr
  | [] => a
  | x :: xs => lastOf x xs

/-- path f a xs holds when successive next pointers read through `f`
lead from `a` along exactly the nodes of `xs`. -/
def path (f : Addr → Option Addr) : Addr → List Addr → Prop
  | _, [] => True
  | a, x :: xs => f a = some x ∧ path f x xs

/-- Decision procedure for `path`, so that concrete instances can be
settled by `decide`. -/
def path.dec (f : Addr → Option Addr) [DecidableEq (Option Addr)] :
    (a : Addr) → (xs : List Addr) → Decidable (path f a xs)
  | _, [] => isTrue trivial
  | a, x :: xs =>
    match decEq (f a) (some x), path.dec f x xs with
    | isTrue h1, isTrue h2 => isTrue ⟨h1, h2⟩
    | isFalse h1, _ => isFalse fun hc => h1 hc.1
    | isTrue _, isFalse h2 => isFalse fun hc => h2 hc.2

instance (f : Addr → Option Addr) (a : Addr) (xs : List Addr) :
    Decidable (path f a xs) :=
  path.dec f a xs

/-- ptrOf m is the pointer-half heap of a queue heap. -/
def ptrOf (m : Addr → counted_ptr) : Addr → Option Addr :=
  fun a => (m a).ptr

/-- QWF σ d xs: quiescent well-formedness of a queue state.  `d` is the
dummy node at the head, `xs` the live elements in order; the chain from
`d` runs through `xs` and is null-terminated, the tail points at the
last node of the chain, the counter difference equals the number of live
elements, the nodes are pairwise distinct, and the tail counter stays
below BIT63 (so counter arithmetic does not touch the handshake bit). -/
def QWF (σ : QState) (d : Addr) (xs : List Addr) : Prop :=
  σ.head.ptr = some d ∧
  σ.tail.ptr = some (lastOf d xs) ∧
  path (ptrOf σ.mem) d xs ∧
  (σ.mem (lastOf d xs)).ptr = none ∧
  σ.tail.ctr = σ.head.ctr + xs.length ∧
  (d :: xs).Nodup ∧
  σ.tail.ctr < BIT63

instance (σ : QState) (d : Addr) (xs : List Addr) : Decidable (QWF σ d xs) := by
  unfold QWF
  infer_instance

/-- SRep σ xs: the stack state holds exactly the nodes `xs`, from top to
bottom, as a null-terminated chain. -/
def SRep (σ : StackState) : List Addr → Prop
  | [] => σ.first.ptr = none
  | x :: xs =>
    σ.first.ptr = some x ∧ path σ.nexts x xs ∧ σ.nexts (lastOf x xs) = none

/-! ### Concrete states used by the closed instances -/

/-- mem0 is the all-null heap. -/
def mem0 : Addr → counted_ptr := fun _ => ⟨none, 0⟩

/-- q0 is a queue initialised on the all-null heap, with dummy node 16
and opaque argument word 5. -/
def q0 : QState := aq_init mem0 16 5

/-- memChain is a heap holding the two-node chain 32 → 48. -/
def memChain : Addr → counted_ptr := fun a =>
  if a = 32 then ⟨some 48, 0⟩ else ⟨none, 0⟩

/-- q1 is a queue initialised on memChain, with dummy node 16 and opaque
argument word 5; the chain 32 → 48 is ready to be enqueued. -/
def q1 : QState := aq_init memChain 16 5

/-- memBad is a heap with the chain 16 → 17 → 48 whose middle node 17 is
misaligned (17 mod 16 = 1) and carries a set handshake bit. -/
def memBad : Addr → counted_ptr := fun a =>
  if a = 16 then ⟨some 17, 0⟩
  else if a = 17 then ⟨some 48, BIT63⟩
  else ⟨none, 0⟩

/-- qBad is a queue initialised on memBad, with dummy node 64. -/
def qBad : QState := aq_init memBad 64 5

/-! ### Basic lemmas about the primitive -/

theorem counted_ptr_eq_eq (a b : counted_ptr) :
    counted_ptr_eq a b = true ↔ a = b := by
  cases a; cases b
  simp [counted_ptr_eq]

theorem counted_ptr_eq_self (a : counted_ptr) : counted_ptr_eq a a = true := by
  simp [counted_ptr_eq]

theorem ccas_self (m : counted_ptr) (p : Option Addr) (i : Nat) :
    counted_compare_and_swap m m p i = (true, ⟨p, (m.ctr + i) % TWO64⟩) := by
  simp [counted_compare_and_swap, counted_ptr_eq_self]

theorem and_bit63_of_clear (c : Nat) (h : c &&& BIT63 = 0) :
    (c ^^^ BIT63) &&& BIT63 = BIT63 := by
  have hb : c.testBit 63 = false := by
    have h2 := Nat.and_two_pow c 63
    rw [show (2 : Nat) ^ 63 = BIT63 from rfl, h] at h2
    cases hc : c.testBit 63
    · rfl
    · rw [hc] at h2; simp [BIT63] at h2
  have h3 := Nat.and_two_pow (c ^^^ BIT63) 63
  rw [show (2 : Nat) ^ 63 = BIT63 from rfl] at h3
  rw [h3]
  have h4 : (c ^^^ BIT63).testBit 63 = true := by
    rw [show BIT63 = (2 : Nat) ^ 63 from rfl, Nat.testBit_xor, hb,
      Nat.testBit_two_pow_self]
    rfl
  rw [h4]
  simp

theorem and_bit63_of_set (c : Nat) (h : c &&& BIT63 ≠ 0) :
    (c ^^^ BIT63) &&& BIT63 = 0 := by
  have hb : c.testBit 63 = true := by
    have h2 := Nat.and_two_pow c 63
    rw [show (2 : Nat) ^ 63 = BIT63 from rfl] at h2
    cases hc : c.testBit 63
    · rw [hc] at h2; simp at h2; exact absurd h2 h
    · rfl
  have h3 := Nat.and_two_pow (c ^^^ BIT63) 63
  rw [show (2 : Nat) ^ 63 = BIT63 from rfl] at h3
  rw [h3]
  have h4 : (c ^^^ BIT63).testBit 63 = false := by
    rw [show BIT63 = (2 : Nat) ^ 63 from rfl, Nat.testBit_xor, hb,
      Nat.testBit_two_pow_self]
    rfl
  rw [h4]
  simp

theorem bit63_and_self : BIT63 &&& BIT63 = BIT63 := by
  have h3 := Nat.and_two_pow BIT63 63
  rw [show (2 : Nat) ^ 63 = BIT63 from rfl] at h3
  rw [h3, show BIT63 = (2 : Nat) ^ 63 from rfl, Nat.testBit_two_pow_self]
  simp

theorem sub64_of_le (a b : Nat) (hba : b ≤ a) (hb : a - b < BIT63) :
    sub64 a b = ((a - b : Nat) : Int) := by
  unfold sub64 toSInt64
  have h1 : a + TWO64 - b = (a - b) + TWO64 := by
    have : b ≤ TWO64 + a := by omega
    omega
  have h2 : a - b < TWO64 := by
    have : BIT63 < TWO64 := by norm_num [BIT63, TWO64]
    omega
  rw [h1, Nat.add_mod_right, Nat.mod_eq_of_lt h2, if_pos hb]

/-! ### Lemmas about chains -/

theorem lastOf_mem (a : Addr) (xs : List Addr) : lastOf a xs ∈ a :: xs := by
  induction xs generalizing a with
  | nil => simp [lastOf]
  | cons x xs ih => exact List.mem_cons_of_mem a (ih x)

theorem lastOf_cons (a x : Addr) (xs : List Addr) :
    lastOf a (x :: xs) = lastOf x xs := rfl

theorem lastOf_append (a : Addr) (xs ys : List Addr) :
    lastOf a (xs ++ ys) = lastOf (lastOf a xs) ys := by
  induction xs generalizing a with
  | nil => rfl
  | cons x xs ih => exact ih x

theorem path_append (f : Addr → Option Addr) (a : Addr) (xs ys : List Addr) :
    path f a (xs ++ ys) ↔ path f a xs ∧ path f (lastOf a xs) ys := by
  induction xs generalizing a with
  | nil => simp [path, lastOf]
  | cons x xs ih =>
    show (f a = some x ∧ path f x (xs ++ ys)) ↔
      (f a = some x ∧ path f x xs) ∧ path f (lastOf x xs) ys
    rw [ih x]
    exact and_assoc.symm

theorem path_congr (f g : Addr → Option Addr) (a : Addr) (xs : List Addr)
    (hag : ∀ y ∈ a :: xs, g y = f y) (hp : path f a xs) : path g a xs := by
  induction xs generalizing a with
  | nil => trivial
  | cons x xs ih =>
    refine ⟨?_, ih x ?_ hp.2⟩
    · rw [hag a (by simp)]; exact hp.1
    · intro y hy; exact hag y (List.mem_cons_of_mem a hy)

theorem path_congr_ne_last (f g : Addr → Option Addr) (a : Addr)
    (xs : List Addr) (hnd : (a :: xs).Nodup)
    (hag : ∀ y ∈ a :: xs, y ≠ lastOf a xs → g y = f y)
    (hp : path f a xs) : path g a xs := by
  induction xs generalizing a with
  | nil => trivial
  | cons x xs ih =>
    have hane : a ≠ lastOf a (x :: xs) := by
      intro he
      have hm : lastOf x xs ∈ x :: xs := lastOf_mem x xs
      rw [lastOf_cons] at he
      exact (List.nodup_cons.mp hnd).1 (he ▸ hm)
    refine ⟨?_, ih x (List.nodup_cons.mp hnd).2 ?_ hp.2⟩
    · rw [hag a (by simp) hane]; exact hp.1
    · intro y hy hyne
      exact hag y (List.mem_cons_of_mem a hy) hyne

/-! ### Frame lemmas for the state operations -/

@[simp] theorem setMem_head (σ : QState) (a : Addr) (v : counted_ptr) :
    (σ.setMem a v).head = σ.head := rfl

@[simp] theorem setMem_tail (σ : QState) (a : Addr) (v : counted_ptr) :
    (σ.setMem a v).tail = σ.tail := rfl

@[simp] theorem setMem_freed (σ : QState) (a : Addr) (v : counted_ptr) :
    (σ.setMem a v).freed = σ.freed := rfl

@[simp] theorem setMem_freeer (σ : QState) (a : Addr) (v : counted_ptr) :
    (σ.setMem a v).freeer = σ.freeer := rfl

@[simp] theorem setMem_freeer_arg (σ : QState) (a : Addr) (v : counted_ptr) :
    (σ.setMem a v).freeer_arg = σ.freeer_arg := rfl

theorem setMem_mem (σ : QState) (a : Addr) (v : counted_ptr) (x : Addr) :
    (σ.setMem a v).mem x = if x = a then v else σ.mem x := rfl

@[simp] theorem aq_el_free_head (σ : QState) (el : Addr) :
    (aq_el_free σ el).head = σ.head := by
  by_cases h : (σ.mem el).ctr &&& BIT63 ≠ 0 <;>
    simp [aq_el_free, h, QState.setMem]

@[simp] theorem aq_el_free_tail (σ : QState) (el : Addr) :
    (aq_el_free σ el).tail = σ.tail := by
  by_cases h : (σ.mem el).ctr &&& BIT63 ≠ 0 <;>
    simp [aq_el_free, h, QState.setMem]

@[simp] theorem aq_el_free_freeer (σ : QState) (el : Addr) :
    (aq_el_free σ el).freeer = σ.freeer := by
  by_cases h : (σ.mem el).ctr &&& BIT63 ≠ 0 <;>
    simp [aq_el_free, h, QState.setMem]

@[simp] theorem aq_el_free_freeer_arg (σ : QState) (el : Addr) :
    (aq_el_free σ el).freeer_arg = σ.freeer_arg := by
  by_cases h : (σ.mem el).ctr &&& BIT63 ≠ 0 <;>
    simp [aq_el_free, h, QState.setMem]

theorem aq_el_free_mem (σ : QState) (el x : Addr) :
    (aq_el_free σ el).mem x =
      if x = el then ⟨(σ.mem el).ptr, (σ.mem el).ctr ^^^ BIT63⟩
      else σ.mem x := by
  by_cases h : (σ.mem el).ctr &&& BIT63 ≠ 0 <;>
    simp [aq_el_free, h, QState.setMem]

theorem aq_el_free_freed (σ : QState) (el : Addr) :
    (aq_el_free σ el).freed =
      if (σ.mem el).ctr &&& BIT63 ≠ 0 then σ.freed ++ [el] else σ.freed := by
  by_cases h : (σ.mem el).ctr &&& BIT63 ≠ 0 <;>
    simp [aq_el_free, h, QState.setMem]

theorem aq_el_free_ptrOf (σ : QState) (el : Addr) :
    ptrOf (aq_el_free σ el).mem = ptrOf σ.mem := by
  funext a
  simp only [ptrOf, aq_el_free_mem]
  split
  · rename_i h; rw [h]
  · rfl

/-! ### Single-threaded dequeue on a well-formed queue -/

theorem aq_dequeue_loop_wf (σ : QState) (d x : Addr) (xs : List Addr)
    (fuel : Nat) (h : QWF σ d (x :: xs)) :
    aq_dequeue_loop (fuel + 1) σ =
      some ({ σ with head := ⟨some x, (σ.head.ctr + 1) % TWO64⟩ },
            some (d, some x)) := by
  obtain ⟨hh, ht, hp, he, hc, hnd, hlt⟩ := h
  have hnx : (σ.mem d).ptr = some x := hp.1
  have hdt : d ≠ lastOf x xs := by
    intro heq
    exact (List.nodup_cons.mp hnd).1 (heq ▸ lastOf_mem x xs)
  rw [lastOf_cons] at ht
  simp only [aq_dequeue_loop, hh, hnx, ht, counted_ptr_eq_self, Bool.not_true,
    Bool.false_eq_true, if_false, ccas_self, Option.some.injEq, or_iff_right_iff_imp,
    reduceCtorEq, false_or, if_neg hdt]
  simp [hdt, ccas_self, hnx]

theorem aq_dequeue_wf (σ : QState) (d x : Addr) (xs : List Addr) (fuel : Nat)
    (h : QWF σ d (x :: xs)) :
    aq_dequeue (fuel + 1) σ =
      some (aq_el_free { σ with head := ⟨some x, (σ.head.ctr + 1) % TWO64⟩ } d,
            some x) := by
  rw [aq_dequeue, aq_dequeue_loop_wf σ d x xs fuel h]

theorem aq_dequeue_wf_post (σ : QState) (d x : Addr) (xs : List Addr)
    (h : QWF σ d (x :: xs)) :
    QWF (aq_el_free { σ with head := ⟨some x, (σ.head.ctr + 1) % TWO64⟩ } d)
      x xs := by
  obtain ⟨hh, ht, hp, he, hc, hnd, hlt⟩ := h
  have hlt2 : BIT63 < TWO64 := by norm_num [BIT63, TWO64]
  have hmod : (σ.head.ctr + 1) % TWO64 = σ.head.ctr + 1 := by
    apply Nat.mod_eq_of_lt
    simp only [List.length_cons] at hc
    omega
  refine ⟨?_, ?_, ?_, ?_, ?_, ?_, ?_⟩
  · rw [aq_el_free_head]
  · rw [aq_el_free_tail]
    exact ht
  · rw [aq_el_free_ptrOf]
    exact hp.2
  · show ptrOf _ (lastOf x xs) = none
    rw [aq_el_free_ptrOf]
    exact he
  · rw [aq_el_free_tail, aq_el_free_head]
    show σ.tail.ctr = (σ.head.ctr + 1) % TWO64 + xs.length
    rw [hmod]
    simp only [List.length_cons] at hc
    omega
  · exact (List.nodup_cons.mp hnd).2
  · rw [aq_el_free_tail]
    exact hlt

theorem aq_dequeue_empty (σ : QState) (d : Addr) (fuel : Nat)
    (h : QWF σ d []) :
    aq_dequeue (fuel + 1) σ = some (σ, none) := by
  obtain ⟨hh, ht, hp, he, hc, hnd, hlt⟩ := h
  have hnx : (σ.mem d).ptr = none := he
  rw [aq_dequeue]
  simp only [aq_dequeue_loop, hh, hnx, counted_ptr_eq_self, Bool.not_true,
    Bool.false_eq_true, if_false]
  simp

theorem aq_dequeue_list_wf (xs : List Addr) (σ : QState) (d : Addr)
    (h : QWF σ d xs) :
    ∃ σ2, aq_dequeue_list xs.length 1 σ = some (σ2, xs.map some) ∧
      QWF σ2 (lastOf d xs) [] := by
  induction xs generalizing σ d with
  | nil => exact ⟨σ, rfl, h⟩
  | cons x xs ih =>
    obtain ⟨σ2, h1, h2⟩ := ih _ _ (aq_dequeue_wf_post σ d x xs h)
    refine ⟨σ2, ?_, h2⟩
    simp only [List.length_cons, aq_dequeue_list,
      aq_dequeue_wf σ d x xs 0 h, h1, List.map]

/-! ### Single-threaded enqueue on a well-formed queue -/

theorem setMem_ptrOf_keep (σ : QState) (a : Addr) (k : Nat) :
    ptrOf (σ.setMem a ⟨(σ.mem a).ptr, k⟩).mem = ptrOf σ.mem := by
  funext x
  simp only [ptrOf, setMem_mem]
  split
  · rename_i h; rw [h]
  · rfl

theorem setMem_ptrOf (σ : QState) (a : Addr) (v : counted_ptr) (x : Addr) :
    ptrOf (σ.setMem a v).mem x = if x = a then v.ptr else ptrOf σ.mem x := by
  simp only [ptrOf, setMem_mem]
  split <;> rfl

theorem aq_chain_scan_wf (rest : List Addr) (m : Addr → counted_ptr)
    (el : Addr) (c fuel : Nat) (hp : path (ptrOf m) el rest)
    (he : (m (lastOf el rest)).ptr = none) (hnd : (el :: rest).Nodup)
    (hf : rest.length ≤ fuel) :
    aq_chain_scan fuel m el c = some (lastOf el rest, c + rest.length) := by
  induction rest generalizing el c fuel with
  | nil =>
    have he2 : (m el).ptr = none := he
    cases fuel <;> simp [aq_chain_scan, he2, lastOf]
  | cons x rest ih =>
    obtain ⟨f, rfl⟩ : ∃ f, fuel = f + 1 := by
      cases fuel
      · simp at hf
      · exact ⟨_, rfl⟩
    have hx : (m el).ptr = some x := hp.1
    have hne : el ≠ x := by
      intro heq
      exact (List.nodup_cons.mp hnd).1 (heq ▸ List.mem_cons_self x rest)
    simp only [aq_chain_scan, hx, if_neg hne]
    rw [ih x (c + 1) f hp.2 he (List.nodup_cons.mp hnd).2
      (by simpa using hf)]
    simp [lastOf_cons]
    omega

theorem aq_enqueue_loop_wf (σ : QState) (el le tp : Addr) (fuel : Nat)
    (htp : σ.tail.ptr = some tp) (hne : tp ≠ el) (hnl : tp ≠ le)
    (hnull : (σ.mem tp).ptr = none) :
    aq_enqueue_loop (fuel + 1) σ el le =
      some ((σ.setMem le ⟨(σ.mem le).ptr, σ.tail.ctr⟩).setMem tp
              ⟨some el, ((σ.mem tp).ctr + 1) % TWO64⟩,
            σ.tail) := by
  have hmemtp : (σ.setMem le ⟨(σ.mem le).ptr, σ.tail.ctr⟩).mem tp = σ.mem tp := by
    rw [setMem_mem, if_neg hnl]
  simp only [aq_enqueue_loop, htp, if_neg hne, counted_ptr_eq_self,
    Bool.not_true, Bool.false_eq_true, if_false, hnull, if_pos rfl, hmemtp,
    ccas_self]
  simp

theorem aq_enqueue_multi_wf (σ : QState) (d el : Addr) (xs rest : List Addr)
    (h : QWF σ d xs)
    (hpe : path (ptrOf σ.mem) el rest)
    (hee : (σ.mem (lastOf el rest)).ptr = none)
    (hnde : (el :: rest).Nodup)
    (hdisj : ∀ y ∈ el :: rest, y ∉ d :: xs)
    (hal : el % 16 = 0)
    (hbit : (σ.mem el).ctr &&& BIT63 = 0)
    (hbound : σ.tail.ctr + (rest.length + 1) < BIT63) :
    ∃ σ2, aq_enqueue_multi (rest.length + 1) σ el =
        some (σ2, ((xs.length + rest.length + 1 : Nat) : Int)) ∧
      QWF σ2 d (xs ++ el :: rest) ∧
      σ2.head = σ.head ∧ σ2.freed = σ.freed ∧ σ2.freeer = σ.freeer ∧
      σ2.freeer_arg = σ.freeer_arg := by
  obtain ⟨hh, ht, hp, he, hc, hnd, hltQ⟩ := h
  have hlt2 : BIT63 < TWO64 := by norm_num [BIT63, TWO64]
  have htpm : lastOf d xs ∈ d :: xs := lastOf_mem d xs
  have hlem : lastOf el rest ∈ el :: rest := lastOf_mem el rest
  have hne : lastOf d xs ≠ el := fun hq =>
    hdisj el (List.mem_cons_self el rest) (hq ▸ htpm)
  have hnl : lastOf d xs ≠ lastOf el rest := fun hq =>
    hdisj (lastOf el rest) hlem (hq ▸ htpm)
  have hscan := aq_chain_scan_wf rest σ.mem el 1 (rest.length + 1) hpe hee
    hnde (by omega)
  have hloop := aq_enqueue_loop_wf σ el (lastOf el rest) (lastOf d xs)
    rest.length ht hne hnl he
  have hmod : (σ.tail.ctr + (1 + rest.length)) % TWO64 =
      σ.tail.ctr + (1 + rest.length) := Nat.mod_eq_of_lt (by omega)
  refine ⟨{ (σ.setMem (lastOf el rest)
        ⟨(σ.mem (lastOf el rest)).ptr, σ.tail.ctr⟩).setMem
        (lastOf d xs) ⟨some el, ((σ.mem (lastOf d xs)).ctr + 1) % TWO64⟩ with
      tail := ⟨some (lastOf el rest),
               (σ.tail.ctr + (1 + rest.length)) % TWO64⟩ },
    ?_, ?_, rfl, rfl, rfl, rfl⟩
  · rw [aq_enqueue_multi, if_neg (by simp [hal]), if_neg (by simp [hbit]),
      hscan]
    simp only [hloop, setMem_tail, setMem_head, ccas_self, Option.some.injEq,
      Prod.mk.injEq]
    refine ⟨trivial, ?_⟩
    rw [hmod, sub64_of_le _ _ (by omega) (by omega)]
    congr 1
    omega
  · have hptr : ∀ x, ptrOf ((σ.setMem (lastOf el rest)
        ⟨(σ.mem (lastOf el rest)).ptr, σ.tail.ctr⟩).setMem
        (lastOf d xs) ⟨some el, ((σ.mem (lastOf d xs)).ctr + 1) % TWO64⟩).mem x =
        if x = lastOf d xs then some el else ptrOf σ.mem x := by
      intro x
      rw [setMem_ptrOf, setMem_ptrOf_keep]
    refine ⟨hh, ?_, ?_, ?_, ?_, ?_, ?_⟩
    · show some (lastOf el rest) = some (lastOf d (xs ++ el :: rest))
      rw [lastOf_append, lastOf_cons]
    · show path _ d (xs ++ el :: rest)
      apply (path_append _ d xs (el :: rest)).mpr
      constructor
      · apply path_congr_ne_last (ptrOf σ.mem) _ d xs hnd _ hp
        intro y _ hyne
        rw [hptr y, if_neg hyne]
      · refine ⟨?_, ?_⟩
        · rw [hptr (lastOf d xs), if_pos rfl]
        · apply path_congr (ptrOf σ.mem) _ el rest _ hpe
          intro y hy
          rw [hptr y, if_neg]
          intro hq
          exact hdisj y hy (hq ▸ htpm)
    · show (_ : counted_ptr).ptr = none
      rw [lastOf_append, lastOf_cons]
      show ptrOf _ (lastOf el rest) = none
      rw [hptr (lastOf el rest), if_neg (fun hq => hnl hq.symm)]
      exact hee
    · show (σ.tail.ctr + (1 + rest.length)) % TWO64 =
        σ.head.ctr + (xs ++ el :: rest).length
      rw [hmod]
      simp only [List.length_append, List.length_cons]
      omega
    · show (d :: (xs ++ el :: rest)).Nodup
      exact List.Nodup.append hnd hnde (fun a ha hb => hdisj a hb ha)
    · show (σ.tail.ctr + (1 + rest.length)) % TWO64 < BIT63
      rw [hmod]
      omega

/-! ### Initialisation and teardown -/

theorem aq_init_wf (m : Addr → counted_ptr) (d : Addr) (arg : Nat) :
    QWF (aq_init m d arg) d [] := by
  refine ⟨rfl, rfl, trivial, ?_, rfl, List.nodup_singleton d, ?_⟩
  · show ((aq_init m d arg).mem d).ptr = none
    simp [aq_init, QState.setMem]
  · show (0 : Nat) < BIT63
    norm_num [BIT63]

theorem aq_free_loop_wf (xs : List Addr) (σ : QState) (d : Addr)
    (hh : σ.head.ptr = some d) (hp : path (ptrOf σ.mem) d xs)
    (he : (σ.mem (lastOf d xs)).ptr = none) :
    aq_free_loop (xs.length + 2) σ =
      { σ with head := ⟨none, (σ.head.ctr + (xs.length + 1)) % TWO64⟩,
               freed := σ.freed ++ (d :: xs) } := by
  induction xs generalizing σ d with
  | nil =>
    have he2 : (σ.mem d).ptr = none := he
    simp only [aq_free_loop, hh, ccas_self, if_pos, he2]
    simp [aq_free_loop]
  | cons x xs ih =>
    have hx : (σ.mem d).ptr = some x := hp.1
    have hstep : aq_free_loop ((x :: xs).length + 2) σ =
        aq_free_loop (xs.length + 2)
          { σ with head := ⟨some x, (σ.head.ctr + 1) % TWO64⟩,
                   freed := σ.freed ++ [d] } := by
      show aq_free_loop (xs.length + 2 + 1) σ = _
      simp only [aq_free_loop, hh, ccas_self, if_pos, hx]
    rw [hstep,
      ih { σ with head := ⟨some x, (σ.head.ctr + 1) % TWO64⟩,
                  freed := σ.freed ++ [d] } x rfl hp.2 he]
    congr 1
    · congr 1
      rw [Nat.mod_add_mod]
      congr 1
      simp only [List.length_cons]
      omega
    · simp

theorem aq_free_wf (σ : QState) (d : Addr) (xs : List Addr) (h : QWF σ d xs) :
    aq_free (xs.length + 2) σ =
      { σ with head := ⟨none, 0⟩, tail := ⟨none, 0⟩, freeer := false,
               freed := σ.freed ++ (d :: xs) } := by
  obtain ⟨hh, ht, hp, he, hc, hnd, hlt⟩ := h
  simp only [aq_free, aq_free_loop_wf xs σ d hh hp he]

/-! ### Single-threaded stack operations -/

theorem as_push_srep (σ : StackState) (e : Addr) (xs : List Addr)
    (h : SRep σ xs) (he : e ∉ xs) :
    as_push σ e = some
      { σ.setNext e σ.first.ptr with
        first := ⟨some e, (σ.first.ctr + 1) % TWO64⟩ } ∧
    SRep { σ.setNext e σ.first.ptr with
           first := ⟨some e, (σ.first.ctr + 1) % TWO64⟩ } (e :: xs) := by
  have hset : (σ.setNext e σ.first.ptr).nexts e = σ.first.ptr := by
    simp [StackState.setNext]
  have hkeep : ∀ y, y ≠ e → (σ.setNext e σ.first.ptr).nexts y = σ.nexts y := by
    intro y hy
    simp [StackState.setNext, hy]
  have hassert : ¬ ((σ.setNext e σ.first.ptr).nexts e = some e) := by
    rw [hset]
    cases xs with
    | nil => rw [h]; simp
    | cons x rest =>
      rw [h.1]
      simp only [Option.some.injEq]
      intro hq
      exact he (hq ▸ List.mem_cons_self x rest)
  constructor
  · rw [as_push, if_neg hassert]
    simp only [StackState.setNext, ccas_self]
    simp
  · refine ⟨rfl, ?_, ?_⟩
    · cases xs with
      | nil => trivial
      | cons x rest =>
        refine ⟨?_, ?_⟩
        · show (σ.setNext e σ.first.ptr).nexts e = some x
          rw [hset, h.1]
        · apply path_congr σ.nexts _ x rest _ h.2.1
          intro y hy
          apply hkeep
          intro hq
          exact he (hq ▸ hy)
    · cases xs with
      | nil =>
        show (σ.setNext e σ.first.ptr).nexts (lastOf e []) = none
        show (σ.setNext e σ.first.ptr).nexts e = none
        rw [hset]
        exact h
      | cons x rest =>
        show (σ.setNext e σ.first.ptr).nexts (lastOf x rest) = none
        rw [hkeep _ (fun hq => he (hq ▸ lastOf_mem x rest)), h.2.2]

theorem as_pop_srep (σ : StackState) (x : Addr) (xs : List Addr)
    (h : SRep σ (x :: xs)) :
    as_pop σ =
      (some x, { σ with first := ⟨σ.nexts x, (σ.first.ctr + 1) % TWO64⟩ }) ∧
    SRep { σ with first := ⟨σ.nexts x, (σ.first.ctr + 1) % TWO64⟩ } xs := by
  obtain ⟨h1, h2, h3⟩ := h
  constructor
  · rw [as_pop.eq_def]
    simp only [h1, ccas_self]
  · cases xs with
    | nil =>
      show σ.nexts x = none
      exact h3
    | cons y rest =>
      exact ⟨h2.1, h2.2, h3⟩

theorem as_push_list_srep (l : List Addr) (σ : StackState) (xs : List Addr)
    (h : SRep σ xs) (hnd : l.Nodup) (hdisj : ∀ y ∈ l, y ∉ xs) :
    ∃ σ2, as_push_list σ l = some σ2 ∧ SRep σ2 (l.reverse ++ xs) := by
  induction l generalizing σ xs with
  | nil => exact ⟨σ, rfl, h⟩
  | cons a l ih =>
    obtain ⟨hpush, hrep⟩ :=
      as_push_srep σ a xs h (hdisj a (List.mem_cons_self a l))
    have hside : ∀ y ∈ l, y ∉ a :: xs := by
      intro y hy hmem
      rcases List.mem_cons.mp hmem with hq | hq
      · exact (List.nodup_cons.mp hnd).1 (hq ▸ hy)
      · exact hdisj y (List.mem_cons_of_mem a hy) hq
    obtain ⟨σ2, h1, h2⟩ := ih _ _ hrep (List.nodup_cons.mp hnd).2 hside
    refine ⟨σ2, ?_, ?_⟩
    · simp only [as_push_list, hpush, h1]
    · have hra : (a :: l).reverse ++ xs = l.reverse ++ (a :: xs) := by
        simp [List.reverse_cons, List.append_assoc]
      rw [hra]
      exact h2

theorem as_pop_list_srep (xs : List Addr) (σ : StackState) (h : SRep σ xs) :
    (as_pop_list xs.length σ).1 = xs.map some ∧
    SRep (as_pop_list xs.length σ).2 [] := by
  induction xs generalizing σ with
  | nil => exact ⟨rfl, h⟩
  | cons x xs ih =>
    obtain ⟨hpop, hrep⟩ := as_pop_srep σ x xs h
    obtain ⟨ih1, ih2⟩ := ih _ hrep
    constructor
    · simp only [List.length_cons, as_pop_list, hpop, ih1, List.map]
    · simp only [List.length_cons, as_pop_list, hpop]
      exact ih2

theorem aq_chain_scan_selflink (ys : List Addr) (m : Addr → counted_ptr)
    (el : Addr) (c fuel : Nat) (hp : path (ptrOf m) el ys)
    (hl : (m (lastOf el ys)).ptr = some (lastOf el ys))
    (hf : ys.length + 1 ≤ fuel) :
    aq_chain_scan fuel m el c = none := by
  induction ys generalizing el c fuel with
  | nil =>
    obtain ⟨f, rfl⟩ : ∃ f, fuel = f + 1 := ⟨fuel - 1, by omega⟩
    have hl2 : (m el).ptr = some el := hl
    simp [aq_chain_scan, hl2]
  | cons x ys ih =>
    obtain ⟨f, rfl⟩ : ∃ f, fuel = f + 1 := ⟨fuel - 1, by omega⟩
    have hx : (m el).ptr = some x := hp.1
    by_cases he : el = x
    · subst he
      simp [aq_chain_scan, hx]
    · simp only [aq_chain_scan, hx, if_neg he]
      exact ih x (c + 1) f hp.2 hl (by simpa using hf)

/-! ### The claims -/

/-- C1: every enqueued node is released exactly once, by the two-party
rendezvous on bit 63 of next.ctr: aq_el_free xors BIT63 into the counter
and invokes the callback iff the pre-xor bit was set, so starting from a
clear bit the first of the two aq_el_free calls (dequeuer advance or user
release, in either order — both events are aq_el_free calls) fires no
callback and the second fires it exactly once; the initial dummy has the
bit pre-set by aq_init, so the single dequeuer toggle releases it; and a
successful dequeue performs exactly the aq_el_free of the old head, so
when that node already carries a set bit (the user released it, or it is
the initial dummy) the dequeue appends exactly one callback invocation
for it. -/
theorem c1_handshake_exactly_once :
    (∀ σ el, ((aq_el_free σ el).mem el).ptr = (σ.mem el).ptr ∧
      ((aq_el_free σ el).mem el).ctr = (σ.mem el).ctr ^^^ BIT63 ∧
      (aq_el_free σ el).freed =
        (if (σ.mem el).ctr &&& BIT63 ≠ 0 then σ.freed ++ [el]
         else σ.freed)) ∧
    (∀ σ el, (σ.mem el).ctr &&& BIT63 = 0 →
      (aq_el_free σ el).freed = σ.freed ∧
      (aq_el_free (aq_el_free σ el) el).freed = σ.freed ++ [el]) ∧
    (∀ m d arg, ((aq_init m d arg).mem d).ctr = BIT63 ∧
      (aq_el_free (aq_init m d arg) d).freed = [d]) ∧
    (∀ σ d x xs, QWF σ d (x :: xs) → (σ.mem d).ctr &&& BIT63 ≠ 0 →
      ∃ σ2, aq_dequeue 1 σ = some (σ2, some x) ∧
        σ2.freed = σ.freed ++ [d]) := by
  have hmem : ∀ σ el, (aq_el_free σ el).mem el =
      ⟨(σ.mem el).ptr, (σ.mem el).ctr ^^^ BIT63⟩ := by
    intro σ el
    rw [aq_el_free_mem, if_pos rfl]
  have hbitpos : BIT63 ≠ 0 := by norm_num [BIT63]
  refine ⟨?_, ?_, ?_, ?_⟩
  · intro σ el
    rw [hmem]
    exact ⟨rfl, rfl, aq_el_free_freed σ el⟩
  · intro σ el hc
    constructor
    · rw [aq_el_free_freed, if_neg (by simp [hc])]
    · rw [aq_el_free_freed, hmem]
      have hset : ((σ.mem el).ctr ^^^ BIT63) &&& BIT63 ≠ 0 := by
        rw [and_bit63_of_clear _ hc]
        exact hbitpos
      rw [if_pos hset, aq_el_free_freed, if_neg (by simp [hc])]
  · intro m d arg
    have hctr : ((aq_init m d arg).mem d).ctr = BIT63 := by
      simp [aq_init, QState.setMem]
    refine ⟨hctr, ?_⟩
    rw [aq_el_free_freed, if_pos (by rw [hctr, bit63_and_self]; exact hbitpos)]
    simp [aq_init, QState.setMem]
  · intro σ d x xs h hbit
    refine ⟨_, aq_dequeue_wf σ d x xs 0 h, ?_⟩
    rw [aq_el_free_freed]
    have : (({ σ with head := ⟨some x, (σ.head.ctr + 1) % TWO64⟩ } :
        QState).mem d).ctr &&& BIT63 ≠ 0 := hbit
    rw [if_pos this]

/-- C1 witness: on the concrete queue q1 the node 32 has a clear
handshake bit; the first aq_el_free fires no callback and the second
fires it exactly once. -/
theorem c1_handshake_exactly_once_witness :
    (aq_el_free (aq_el_free q1 32) 32).freed = [32] :=
  (c1_handshake_exactly_once.2.1 q1 32 (by decide)).2

/-- C3: counted_compare_and_swap replaces the cell with
(newptr, expected.ctr + inc mod 2 to the 64) iff the cell equals the
expected value on both halves, reporting success, and leaves the cell
unchanged on failure; counted_ptr_eq is equality of both halves. -/
theorem c3_ccas_contract :
    (∀ (mem old : counted_ptr) (newptr : Option Addr) (inc : Nat),
      0 < inc →
      ((counted_compare_and_swap mem old newptr inc).1 = true ↔
        mem = old) ∧
      (mem = old →
        (counted_compare_and_swap mem old newptr inc).2 =
          ⟨newptr, (old.ctr + inc) % TWO64⟩) ∧
      (mem ≠ old →
        (counted_compare_and_swap mem old newptr inc).2 = mem)) ∧
    (∀ a b : counted_ptr,
      counted_ptr_eq a b = true ↔ a.ptr = b.ptr ∧ a.ctr = b.ctr) := by
  constructor
  · intro mem old newptr inc _
    refine ⟨?_, ?_, ?_⟩
    · rw [counted_compare_and_swap]
      by_cases h : mem = old
      · simp [h, counted_ptr_eq_self]
      · simp [h, (by simpa [counted_ptr_eq_eq] using h :
          ¬ counted_ptr_eq mem old = true)]
    · intro h
      rw [counted_compare_and_swap,
        if_pos (by rw [counted_ptr_eq_eq]; exact h)]
    · intro h
      rw [counted_compare_and_swap,
        if_neg (by rw [counted_ptr_eq_eq]; exact h)]
  · intro a b
    cases a; cases b
    simp [counted_ptr_eq]

/-- C3 witness: a concrete successful swap. -/
theorem c3_ccas_contract_witness :
    (counted_compare_and_swap ⟨none, 0⟩ ⟨none, 0⟩ (some 16) 1).2 =
      ⟨some 16, (0 + 1) % TWO64⟩ :=
  (c3_ccas_contract.1 ⟨none, 0⟩ ⟨none, 0⟩ (some 16) 1 (by decide)).2.1 rfl

/-- C5: on an empty well-formed queue, aq_dequeue returns NULL at once
with the state (in particular head and tail) unchanged, aq_queued
returns 0, and aq_empty observes true; the NULL return is an ordinary
result of the same shape as a successful one. -/
theorem c5_empty_queue (σ : QState) (d : Addr) (fuel : Nat)
    (h : QWF σ d []) :
    aq_dequeue (fuel + 1) σ = some (σ, none) ∧
    aq_queued σ = 0 ∧
    aq_empty σ = some true := by
  refine ⟨aq_dequeue_empty σ d fuel h, ?_, ?_⟩
  · obtain ⟨hh, ht, hp, he, hc, hnd, hlt⟩ := h
    rw [aq_queued, sub64_of_le _ _ (by omega) (by omega)]
    simp only [List.length_nil, Nat.add_zero] at hc
    rw [hc]
    simp
  · obtain ⟨hh, ht, hp, he, hc, hnd, hlt⟩ := h
    have he2 : (σ.mem d).ptr = none := he
    simp [aq_empty, hh, he2]

/-- C5 witness: the concrete empty queue q0. -/
theorem c5_empty_queue_witness :
    aq_dequeue 1 q0 = some (q0, none) ∧
    aq_queued q0 = 0 ∧
    aq_empty q0 = some true :=
  c5_empty_queue q0 16 0 (by decide)

/-- C2: sequential FIFO.  On a well-formed empty queue, enqueueing a
null-terminated chain of k = rest.length + 1 fresh nodes succeeds and
returns k, and k successive dequeues return exactly those k nodes in
chain order; moreover on any well-formed nonempty queue a dequeue
returns the oldest element (the head of the live chain). -/
theorem c2_fifo (σ : QState) (d el : Addr) (rest : List Addr)
    (h : QWF σ d [])
    (hpe : path (ptrOf σ.mem) el rest)
    (hee : (σ.mem (lastOf el rest)).ptr = none)
    (hnde : (el :: rest).Nodup)
    (hdisj : ∀ y ∈ el :: rest, y ∉ [d])
    (hal : el % 16 = 0)
    (hbit : (σ.mem el).ctr &&& BIT63 = 0)
    (hbound : σ.tail.ctr + (rest.length + 1) < BIT63) :
    (∃ σ2 σ3, aq_enqueue_multi (rest.length + 1) σ el =
        some (σ2, ((rest.length + 1 : Nat) : Int)) ∧
      aq_dequeue_list (rest.length + 1) 1 σ2 =
        some (σ3, (el :: rest).map some)) ∧
    (∀ τ e x ys, QWF τ e (x :: ys) →
      ∃ τ2, aq_dequeue 1 τ = some (τ2, some x)) := by
  constructor
  · obtain ⟨σ2, henq, hwf2, _, _, _, _⟩ :=
      aq_enqueue_multi_wf σ d el [] rest h hpe hee hnde hdisj hal hbit hbound
    have hwf2b : QWF σ2 d (el :: rest) := by simpa using hwf2
    obtain ⟨σ3, hdeq, _⟩ := aq_dequeue_list_wf (el :: rest) σ2 d hwf2b
    refine ⟨σ2, σ3, by simpa using henq, by simpa using hdeq⟩
  · intro τ e x ys hq
    exact ⟨_, aq_dequeue_wf τ e x ys 0 hq⟩

/-- C2 witness: the chain 32 → 48 enqueued onto the concrete empty queue
q1 and recovered by two dequeues, in order, with return value 2. -/
theorem c2_fifo_witness :
    (∃ σ2 σ3, aq_enqueue_multi 2 q1 32 = some (σ2, (2 : Int)) ∧
      aq_dequeue_list 2 1 σ2 = some (σ3, [some 32, some 48])) ∧
    (∀ τ e x ys, QWF τ e (x :: ys) →
      ∃ τ2, aq_dequeue 1 τ = some (τ2, some x)) :=
  c2_fifo q1 16 32 [48] (by decide) (by decide) (by decide) (by decide)
    (by decide) (by decide) (by decide) (by decide)

/-- C4: aq_queued returns the int64 difference tail.ctr - head.ctr; both
enqueue operations return exactly aq_queued of the post state; and on a
quiescent well-formed queue this value equals the number of live
elements. -/
theorem c4_queued_upper_bound :
    (∀ σ, aq_queued σ = sub64 σ.tail.ctr σ.head.ctr) ∧
    (∀ fuel σ el σ2 r, aq_enqueue_multi fuel σ el = some (σ2, r) →
      r = aq_queued σ2) ∧
    (∀ fuel σ el σ2 r, aq_enqueue fuel σ el = some (σ2, r) →
      r = aq_queued σ2) ∧
    (∀ σ d xs, QWF σ d xs → aq_queued σ = (xs.length : Int)) := by
  have hmulti : ∀ fuel σ el σ2 r,
      aq_enqueue_multi fuel σ el = some (σ2, r) → r = aq_queued σ2 := by
    intro fuel σ el σ2 r h
    simp only [aq_enqueue_multi] at h
    split at h
    · exact absurd h (by simp)
    split at h
    · exact absurd h (by simp)
    split at h
    · exact absurd h (by simp)
    split at h
    · exact absurd h (by simp)
    simp only [Option.some.injEq, Prod.mk.injEq] at h
    obtain ⟨h1, h2⟩ := h
    rw [← h1, ← h2]
    rfl
  refine ⟨fun σ => rfl, hmulti, ?_, ?_⟩
  · intro fuel σ el σ2 r h
    rw [aq_enqueue] at h
    exact hmulti fuel _ el σ2 r h
  · intro σ d xs h
    obtain ⟨hh, ht, hp, he, hc, hnd, hlt⟩ := h
    rw [aq_queued, sub64_of_le _ _ (by omega) (by omega), hc]
    simp

/-- C4 witness: on the concrete empty queue q0 the upper bound is 0, and
a concrete enqueue returns aq_queued of its post state. -/
theorem c4_queued_upper_bound_witness :
    aq_queued q0 = ((0 : Nat) : Int) :=
  c4_queued_upper_bound.2.2.2 q0 16 [] (by decide)

/-- C6 counterexample: on the concrete queue qBad, the chain
16 → 17 → 48 contains the node 17, which is both misaligned
(17 mod 16 = 1) and carries a set handshake bit, yet aq_enqueue_multi
completes without any assertion failure: the alignment and handshake
assertions are executed for the first node of the chain only. -/
theorem c6_counterexample :
    (aq_enqueue_multi 3 qBad 16).isSome = true ∧
    17 % 16 ≠ 0 ∧
    (qBad.mem 17).ctr &&& BIT63 ≠ 0 := by decide

/-- C6 amended: aq_enqueue_multi detects by assertion the 16-byte
alignment and the clear handshake bit of the FIRST node of the chain
only, and non-self-linking for every node along the walk; nodes after
the first may be misaligned or carry a set handshake bit without
tripping any assertion. -/
theorem c6_asserts_first_node_only :
    (∀ fuel σ el, el % 16 ≠ 0 → aq_enqueue_multi fuel σ el = none) ∧
    (∀ fuel σ el, (σ.mem el).ctr &&& BIT63 ≠ 0 →
      aq_enqueue_multi fuel σ el = none) ∧
    (∀ fuel σ el ys, path (ptrOf σ.mem) el ys →
      (σ.mem (lastOf el ys)).ptr = some (lastOf el ys) →
      ys.length + 1 ≤ fuel →
      aq_enqueue_multi fuel σ el = none) ∧
    (∀ σ d el xs rest, QWF σ d xs →
      path (ptrOf σ.mem) el rest →
      (σ.mem (lastOf el rest)).ptr = none →
      (el :: rest).Nodup →
      (∀ y ∈ el :: rest, y ∉ d :: xs) →
      el % 16 = 0 →
      (σ.mem el).ctr &&& BIT63 = 0 →
      σ.tail.ctr + (rest.length + 1) < BIT63 →
      (aq_enqueue_multi (rest.length + 1) σ el).isSome = true) := by
  refine ⟨?_, ?_, ?_, ?_⟩
  · intro fuel σ el h
    rw [aq_enqueue_multi, if_pos h]
  · intro fuel σ el h
    by_cases hal : el % 16 ≠ 0
    · rw [aq_enqueue_multi, if_pos hal]
    · rw [aq_enqueue_multi, if_neg hal, if_pos h]
  · intro fuel σ el ys hp hl hf
    by_cases hal : el % 16 ≠ 0
    · rw [aq_enqueue_multi, if_pos hal]
    · by_cases hbit : (σ.mem el).ctr &&& BIT63 ≠ 0
      · rw [aq_enqueue_multi, if_neg hal, if_pos hbit]
      · rw [aq_enqueue_multi, if_neg hal, if_neg hbit,
          aq_chain_scan_selflink ys σ.mem el 1 fuel hp hl hf]
  · intro σ d el xs rest h hpe hee hnde hdisj hal hbit hbound
    obtain ⟨σ2, henq, _⟩ :=
      aq_enqueue_multi_wf σ d el xs rest h hpe hee hnde hdisj hal hbit hbound
    rw [henq]
    rfl

/-- C6 amended witness: a misaligned first node aborts, and the concrete
chain of qBad with a compliant first node succeeds. -/
theorem c6_asserts_first_node_only_witness :
    aq_enqueue_multi 1 q0 17 = none ∧
    (aq_enqueue_multi 2 q1 32).isSome = true :=
  ⟨c6_asserts_first_node_only.1 1 q0 17 (by decide),
   c6_asserts_first_node_only.2.2.2 q1 16 32 [] [48] (by decide) (by decide)
     (by decide) (by decide) (by decide) (by decide) (by decide) (by decide)⟩

/-- C7: the stack is LIFO for single-threaded traces: pushing a list of
distinct nodes onto a fresh stack and then popping returns the nodes in
reverse push order, ending with a NULL head; a pop on a NULL head
returns NULL and leaves the state unchanged; and every successful push
or pop advances the head counter by exactly one (mod 2 to the 64). -/
theorem c7_stack_lifo :
    (∀ (h0 : Addr → Option Addr) (l : List Addr), l.Nodup →
      ∃ σ2, as_push_list (as_init h0) l = some σ2 ∧
        (as_pop_list l.length σ2).1 = l.reverse.map some ∧
        (as_pop_list l.length σ2).2.first.ptr = none) ∧
    (∀ σ : StackState, σ.first.ptr = none → as_pop σ = (none, σ)) ∧
    (∀ σ e σ2, as_push σ e = some σ2 →
      σ2.first.ctr = (σ.first.ctr + 1) % TWO64) ∧
    (∀ σ p, σ.first.ptr = some p →
      (as_pop σ).2.first.ctr = (σ.first.ctr + 1) % TWO64) := by
  refine ⟨?_, ?_, ?_, ?_⟩
  · intro h0 l hnd
    have hrep0 : SRep (as_init h0) [] := rfl
    obtain ⟨σ2, h1, h2⟩ :=
      as_push_list_srep l (as_init h0) [] hrep0 hnd (by simp)
    rw [List.append_nil] at h2
    obtain ⟨h3, h4⟩ := as_pop_list_srep l.reverse σ2 h2
    rw [List.length_reverse] at h3 h4
    exact ⟨σ2, h1, h3, h4⟩
  · intro σ h
    rw [as_pop.eq_def]
    simp [h]
  · intro σ e σ2 h
    rw [as_push] at h
    split at h
    · exact absurd h (by simp)
    · simp [StackState.setNext, ccas_self] at h
      subst h
      rfl
  · intro σ p h
    rw [as_pop.eq_def]
    simp [h, ccas_self]

/-- C7 witness: pushes of 16 and 32 then two pops return 32 then 16. -/
theorem c7_stack_lifo_witness :
    ∃ σ2, as_push_list (as_init fun _ => none) [16, 32] = some σ2 ∧
      (as_pop_list 2 σ2).1 = [some 32, some 16] ∧
      (as_pop_list 2 σ2).2.first.ptr = none :=
  c7_stack_lifo.1 (fun _ => none) [16, 32] (by decide)

/-- C8 counterexample: after aq_free on the concrete queue q0 (whose
opaque argument word is 5), the opaque argument is NOT zeroed: the
source only clears head, tail and the callback pointer. -/
theorem c8_counterexample : (aq_free 2 q0).freeer_arg ≠ 0 := by decide

/-- C8 amended: aq_free with no concurrent users invokes the release
callback exactly once for every node still in the chain, the current
dummy included and first, by repeated CAS-advances of head, and then
zeroes head.ptr, tail.ptr, both counters and the callback function
pointer; the opaque argument word is left unchanged. -/
theorem c8_free_drains (σ : QState) (d : Addr) (xs : List Addr)
    (h : QWF σ d xs) :
    aq_free (xs.length + 2) σ =
      { σ with head := ⟨none, 0⟩, tail := ⟨none, 0⟩, freeer := false,
               freed := σ.freed ++ (d :: xs) } :=
  aq_free_wf σ d xs h

/-- C8 amended witness: freeing the concrete empty queue q0 releases
exactly its dummy node 16 and zeroes everything except the argument. -/
theorem c8_free_drains_witness :
    aq_free 2 q0 =
      { q0 with head := ⟨none, 0⟩, tail := ⟨none, 0⟩, freeer := false,
                freed := q0.freed ++ [16] } :=
  c8_free_drains q0 16 [] (by decide)

/-- C9: aq_enqueue stores NULL into the next pointer of its node before
delegating to aq_enqueue_multi, so its result is independent of any
stale next pointer left in the node. -/
theorem c9_enqueue_nulls_next :
    (∀ fuel σ el, aq_enqueue fuel σ el =
      aq_enqueue_multi fuel (σ.setMem el ⟨none, (σ.mem el).ctr⟩) el) ∧
    (∀ fuel (σ : QState) (el : Addr) (p q : Option Addr) (c : Nat),
      aq_enqueue fuel (σ.setMem el ⟨p, c⟩) el =
      aq_enqueue fuel (σ.setMem el ⟨q, c⟩) el) := by
  constructor
  · intro fuel σ el
    rfl
  · intro fuel σ el p q c
    have hread : ∀ v : counted_ptr, ((σ.setMem el v).mem el).ctr = v.ctr := by
      intro v
      rw [setMem_mem, if_pos rfl]
    have hst : (σ.setMem el ⟨p, c⟩).setMem el ⟨none, c⟩ =
        (σ.setMem el ⟨q, c⟩).setMem el ⟨none, c⟩ := by
      simp only [QState.setMem]
      congr 1
      funext x
      by_cases hx : x = el <;> simp [hx]
    rw [aq_enqueue, aq_enqueue, hread ⟨p, c⟩, hread ⟨q, c⟩, hst]

/-- C10: the observers are pure: the embedding types them as functions
returning plain values and no queue or stack field occurs on their write
side; moreover each is a function of its read footprint only: aq_queued
of the two counters, aq_empty of the head pointer and the one node cell
it points at, as_empty of the stack head pointer. -/
theorem c10_observers_pure :
    (∀ σ1 σ2 : QState, σ1.head.ctr = σ2.head.ctr →
      σ1.tail.ctr = σ2.tail.ctr → aq_queued σ1 = aq_queued σ2) ∧
    (∀ σ1 σ2 : QState, σ1.head.ptr = σ2.head.ptr →
      (∀ a, σ1.head.ptr = some a → σ1.mem a = σ2.mem a) →
      aq_empty σ1 = aq_empty σ2) ∧
    (∀ σ1 σ2 : StackState, σ1.first.ptr = σ2.first.ptr →
      as_empty σ1 = as_empty σ2) := by
  refine ⟨?_, ?_, ?_⟩
  · intro σ1 σ2 h1 h2
    rw [aq_queued, aq_queued, h1, h2]
  · intro σ1 σ2 h1 h2
    rw [aq_empty, aq_empty, ← h1]
    cases hh : σ1.head.ptr with
    | none => rfl
    | some a =>
      show some (σ1.mem a).ptr.isNone = some (σ2.mem a).ptr.isNone
      rw [h2 a hh]
  · intro σ1 σ2 h1
    rw [as_empty, as_empty, h1]

/-- C10 witness: aq_queued does not depend on the callback fields or the
log. -/
theorem c10_observers_pure_witness :
    aq_queued q0 = aq_queued { q0 with freed := [7], freeer_arg := 0 } :=
  c10_observers_pure.1 q0 { q0 with freed := [7], freeer_arg := 0 } rfl rfl
